import Mathlib

/-!
Shallow embedding of the responsive layout and text-measurement core of the
`clime` terminal-UI library, together with theorems checking the library's
specification against the code.

Conventions of the embedding:
* Go strings are modelled as `List Char` (sequences of Unicode scalar values);
  the claims under study only concern well-formed UTF-8 text.
* Go `int` is modelled as `Int`; Go integer division truncates toward zero and
  is therefore modelled by `Int.tdiv`.
* Go `float64` values that the code multiplies with terminal widths are
  modelled as exact rationals (`ℚ`); the Go conversion `int(x)` truncates
  toward zero and is modelled by `goTrunc`.
* The external collaborator `golang.org/x/term` is represented by explicit
  parameters: `GetSize` yields `(0, 0)` together with an error on failure
  (the error itself is discarded by the code under study), and `IsTerminal`
  reports `false` when stdout is not a terminal.
-/

namespace Clime

/-! ## Breakpoint classifier (responsive.go) -/

/-- The five breakpoint tiers, `BreakpointSize` in the source
(`XS | SM | MD | LG | XL`, an iota enum). -/
inductive BreakpointSize where
  | xs
  | sm
  | md
  | lg
  | xl
deriving DecidableEq, Repr

/-- Go's `BreakpointSize(i)` conversion from a list index produced by the
classification loop; only indices 0–4 occur. -/
def BreakpointSize.ofIndex : Nat → BreakpointSize
  | 0 => .xs
  | 1 => .sm
  | 2 => .md
  | 3 => .lg
  | _ => .xl

/-- One row of the breakpoint table (struct `Breakpoint`). -/
structure Breakpoint where
  size : BreakpointSize
  minWidth : Int
  maxWidth : Int
  name : String
  isActive : Bool
deriving DecidableEq, Repr

/-- The static breakpoint table, verbatim from the source: note that the XL
row carries `MaxWidth = 999`, not an unbounded upper end. -/
def Breakpoints : List Breakpoint :=
  [⟨.xs, 0, 59, "xs", false⟩,
   ⟨.sm, 60, 79, "sm", false⟩,
   ⟨.md, 80, 119, "md", false⟩,
   ⟨.lg, 120, 159, "lg", false⟩,
   ⟨.xl, 160, 999, "xl", false⟩]

/-- The per-row match test of the classification loop:
`width >= bp.MinWidth && width <= bp.MaxWidth`. -/
def matchesWidth (width : Int) (bp : Breakpoint) : Bool :=
  bp.minWidth ≤ width && width ≤ bp.maxWidth

/-- The `for i, bp := range Breakpoints` search in `updateBreakpoint`:
first index whose row matches, if any. -/
def findActiveIndex (width : Int) : List (Nat × Breakpoint) → Option Nat
  | [] => none
  | (i, bp) :: rest =>
      if matchesWidth width bp then some i else findActiveIndex width rest

/-- `updateBreakpoint` (the classification step): the first matching row wins;
when no row matches, the Go local `var newBreakpoint BreakpointSize` keeps its
zero value, which is `BreakpointXS`. -/
def updateBreakpoint (width : Int) : BreakpointSize :=
  match findActiveIndex width Breakpoints.enum with
  | some i => BreakpointSize.ofIndex i
  | none => BreakpointSize.xs

/-! ## Responsive sizing engine (responsive.go) -/

/-- Go's `int(x)` conversion on a `float64`, modelled on exact rationals:
truncation toward zero. -/
def goTrunc (q : ℚ) : Int := Int.tdiv q.num q.den

/-- `SmartWidth`, as a function of the probed terminal width, the current
breakpoint and the caller-supplied percentage. The Go `min` helper is the
usual binary minimum on `int`. -/
def SmartWidth (terminalWidth : Int) (bp : BreakpointSize) (percentage : ℚ) : Int :=
  let baseWidth := goTrunc ((terminalWidth : ℚ) * percentage)
  match bp with
  | .xs => min baseWidth (terminalWidth - 2)
  | .sm => min baseWidth (terminalWidth - 4)
  | .md => min baseWidth (terminalWidth - 8)
  | .lg => min baseWidth (terminalWidth - 12)
  | .xl => min baseWidth (min (terminalWidth - 16) 120)

/-- `SmartPadding`: fixed per-tier table (the Go switch is exhaustive over the
five tiers, so its trailing `return 1` is unreachable). -/
def SmartPadding : BreakpointSize → Int
  | .xs => 0
  | .sm => 1
  | .md => 1
  | .lg => 2
  | .xl => 2

/-- `SmartMargin`: fixed per-tier table (trailing `return 4` unreachable). -/
def SmartMargin : BreakpointSize → Int
  | .xs => 1
  | .sm => 2
  | .md => 4
  | .lg => 6
  | .xl => 8

/-- `GetOptimalColumns`: available width after margins, raw column count by
truncated division, clamped below by 1 and capped by a per-tier maximum. -/
def GetOptimalColumns (terminalWidth : Int) (bp : BreakpointSize) (contentWidth : Int) : Int :=
  let availableWidth := terminalWidth - SmartMargin bp * 2
  let cw := if contentWidth ≤ 0 then 20 else contentWidth
  let rawColumns := Int.tdiv availableWidth (cw + 2)
  let columns := if rawColumns < 1 then 1 else rawColumns
  match bp with
  | .xs => min columns 1
  | .sm => min columns 2
  | .md => min columns 3
  | .lg => min columns 4
  | .xl => min columns 6

/-! ## Per-tier override resolution (responsive.go) -/

/-- `ElementConfig`: per-breakpoint element configuration; Go pointer fields
become `Option`. -/
structure ElementConfig where
  width : Option Int
  height : Option Int
  padding : Option Int
  margin : Option Int
  showFull : Bool
  compact : Bool
deriving DecidableEq, Repr

/-- `ResponsiveConfig`: one optional `ElementConfig` slot per tier. -/
structure ResponsiveConfig where
  XS : Option ElementConfig
  SM : Option ElementConfig
  MD : Option ElementConfig
  LG : Option ElementConfig
  XL : Option ElementConfig
deriving DecidableEq, Repr

/-- `GetConfigForBreakpoint`: the Go switch with its nested nil checks,
transcribed case by case. -/
def GetConfigForBreakpoint (rc : ResponsiveConfig) (bp : BreakpointSize) :
    Option ElementConfig :=
  match bp with
  | .xs =>
      match rc.XS with
      | some c => some c
      | none => none
  | .sm =>
      match rc.SM with
      | some c => some c
      | none =>
        match rc.XS with
        | some c => some c
        | none => none
  | .md =>
      match rc.MD with
      | some c => some c
      | none =>
        match rc.SM with
        | some c => some c
        | none =>
          match rc.XS with
          | some c => some c
          | none => none
  | .lg =>
      match rc.LG with
      | some c => some c
      | none =>
        match rc.MD with
        | some c => some c
        | none =>
          match rc.SM with
          | some c => some c
          | none =>
            match rc.XS with
            | some c => some c
            | none => none
  | .xl =>
      match rc.XL with
      | some c => some c
      | none =>
        match rc.LG with
        | some c => some c
        | none =>
          match rc.MD with
          | some c => some c
          | none =>
            match rc.SM with
            | some c => some c
            | none =>
              match rc.XS with
              | some c => some c
              | none => none

/-- The slot of a `ResponsiveConfig` for a given tier. -/
def slot (rc : ResponsiveConfig) : BreakpointSize → Option ElementConfig
  | .xs => rc.XS
  | .sm => rc.SM
  | .md => rc.MD
  | .lg => rc.LG
  | .xl => rc.XL

/-- Tiers from a given tier down to XS, in fallback order. -/
def tiersAtOrBelow : BreakpointSize → List BreakpointSize
  | .xs => [.xs]
  | .sm => [.sm, .xs]
  | .md => [.md, .sm, .xs]
  | .lg => [.lg, .md, .sm, .xs]
  | .xl => [.xl, .lg, .md, .sm, .xs]

/-- Resolution rule written from the spec's words (§3): the first defined slot
walking from the requested tier down to XS, `null` if none is defined. Used
only to compare against `GetConfigForBreakpoint`. -/
def resolveSpec (rc : ResponsiveConfig) (bp : BreakpointSize) : Option ElementConfig :=
  (tiersAtOrBelow bp).findSome? (slot rc)

/-! ## Terminal probe (terminal.go) -/

/-- `Terminal`: the probe snapshot stored by the sizing engine. -/
structure Terminal where
  width : Int
  height : Int
  isATTY : Bool
deriving DecidableEq, Repr

/-- Result of `term.GetSize`: the library returns `(0, 0)` alongside the error
when the platform query fails; the error return is discarded (`_`) by
`NewTerminal`. A successful probe is `some (w, h)`. -/
def termGetSize : Option (Int × Int) → Int × Int
  | some wh => wh
  | none => (0, 0)

/-- `NewTerminal`: substitute 80 columns when the probed width is 0 and 24 rows
when the probed height is 0; `isATTY` is `term.IsTerminal`'s answer, which is
`false` when stdout is not a terminal (in particular when the probe failed). -/
def NewTerminal (probe : Option (Int × Int)) (isTTY : Bool) : Terminal :=
  let w := (termGetSize probe).1
  let h := (termGetSize probe).2
  { width := if w = 0 then 80 else w
    height := if h = 0 then 24 else h
    isATTY := isTTY }

/-- `getTerminalSize`: try the TTY probe (guarded by `IsTerminal` and an error
check, together modelled as an `Option`), then the Windows PowerShell probe
(which yields `(0, 0)` on any failure), then fall back to `(80, 24)`. -/
def getTerminalSize (ttyProbe : Option (Int × Int)) (windowsProbe : Int × Int) : Int × Int :=
  match ttyProbe with
  | some wh => wh
  | none =>
      if windowsProbe.1 > 0 && windowsProbe.2 > 0 then windowsProbe else (80, 24)

/-! ## Visual width measurer (terminal.go) -/

/-- The ASCII escape character `\x1b` that opens an ANSI sequence. -/
def escChar : Char := '\x1b'

/-- A character allowed in the parameter part of an ANSI escape:
the regex class `[0-9;]`. -/
def isAnsiParam (c : Char) : Bool :=
  ('0' ≤ c && c ≤ '9') || c = ';'

/-- The final byte of an ANSI escape: the regex class `[a-zA-Z]`. -/
def isAnsiFinal (c : Char) : Bool :=
  ('a' ≤ c && c ≤ 'z') || ('A' ≤ c && c ≤ 'Z')

/-- After `ESC [`, consume `[0-9;]*` and then one `[a-zA-Z]`; return the
remainder of the input on success. The parameter run is maximal, and since no
character is both a parameter and a final byte the match extent is unique. -/
def consumeParams : List Char → Option (List Char)
  | [] => none
  | c :: rest =>
      if isAnsiParam c then consumeParams rest
      else if isAnsiFinal c then some rest
      else none

/-- Try to match `\[[0-9;]*[a-zA-Z]` (the part of the regex after `ESC`)
at the head of the input; return the remainder on success. -/
def matchEscape : List Char → Option (List Char)
  | c :: rest => if c = '[' then consumeParams rest else none
  | [] => none

/-- Fuelled scan implementing `regexp.ReplaceAllString` with the pattern
`\x1b\[[0-9;]*[a-zA-Z]` and the empty replacement: at each position, if the
pattern matches there, drop the match and continue after it; otherwise keep
the character. Fuel bounds the number of steps so the recursion is
structural; `removeANSIEscapeCodes` supplies fuel `= length`, which is always
sufficient because each step strictly shrinks the input. -/
def stripFuel : Nat → List Char → List Char
  | 0, l => l
  | _, [] => []
  | fuel + 1, c :: rest =>
      if c = escChar then
        match matchEscape rest with
        | some rest2 => stripFuel fuel rest2
        | none => c :: stripFuel fuel rest
      else c :: stripFuel fuel rest

/-- `removeANSIEscapeCodes`: strip every occurrence of the library's ANSI
escape pattern, scanning left to right. -/
def removeANSIEscapeCodes (s : List Char) : List Char :=
  stripFuel s.length s

/-- `isWideChar`: the fixed table of double-width Unicode ranges, verbatim. -/
def isWideChar (c : Char) : Bool :=
  let n := c.toNat
  (0x1100 ≤ n && n ≤ 0x115F) ||
  (0x2E80 ≤ n && n ≤ 0x2EFF) ||
  (0x2F00 ≤ n && n ≤ 0x2FDF) ||
  (0x2FF0 ≤ n && n ≤ 0x2FFF) ||
  (0x3000 ≤ n && n ≤ 0x303F) ||
  (0x3040 ≤ n && n ≤ 0x309F) ||
  (0x30A0 ≤ n && n ≤ 0x30FF) ||
  (0x3100 ≤ n && n ≤ 0x312F) ||
  (0x3130 ≤ n && n ≤ 0x318F) ||
  (0x3190 ≤ n && n ≤ 0x319F) ||
  (0x31A0 ≤ n && n ≤ 0x31BF) ||
  (0x31C0 ≤ n && n ≤ 0x31EF) ||
  (0x31F0 ≤ n && n ≤ 0x31FF) ||
  (0x3200 ≤ n && n ≤ 0x32FF) ||
  (0x3300 ≤ n && n ≤ 0x33FF) ||
  (0x3400 ≤ n && n ≤ 0x4DBF) ||
  (0x4E00 ≤ n && n ≤ 0x9FFF) ||
  (0xA000 ≤ n && n ≤ 0xA48F) ||
  (0xA490 ≤ n && n ≤ 0xA4CF) ||
  (0xAC00 ≤ n && n ≤ 0xD7AF) ||
  (0xF900 ≤ n && n ≤ 0xFAFF) ||
  (0xFE10 ≤ n && n ≤ 0xFE1F) ||
  (0xFE30 ≤ n && n ≤ 0xFE4F) ||
  (0xFE50 ≤ n && n ≤ 0xFE6F) ||
  (0xFF00 ≤ n && n ≤ 0xFFEF) ||
  (0x1F300 ≤ n && n ≤ 0x1F5FF) ||
  (0x1F600 ≤ n && n ≤ 0x1F64F) ||
  (0x1F680 ≤ n && n ≤ 0x1F6FF) ||
  (0x1F700 ≤ n && n ≤ 0x1F77F) ||
  (0x1F780 ≤ n && n ≤ 0x1F7FF) ||
  (0x1F800 ≤ n && n ≤ 0x1F8FF) ||
  (0x1F900 ≤ n && n ≤ 0x1F9FF) ||
  (0x20000 ≤ n && n ≤ 0x2A6DF) ||
  (0x2A700 ≤ n && n ≤ 0x2B73F) ||
  (0x2B740 ≤ n && n ≤ 0x2B81F) ||
  (0x2B820 ≤ n && n ≤ 0x2CEAF) ||
  (0x2CEB0 ≤ n && n ≤ 0x2EBEF)

/-- Column width of one decoded character: 2 for wide characters, 1 otherwise.
(On well-formed text Go's `utf8.RuneError` branch, also width 1, never fires
for a genuinely invalid sequence; a literal U+FFFD is likewise width 1.) -/
def charWidth (c : Char) : Nat :=
  if isWideChar c then 2 else 1

/-- Sum of per-character column widths of an (already stripped) run of text. -/
def widthSum (l : List Char) : Nat :=
  (l.map charWidth).sum

/-- `getVisualWidth`: strip ANSI escapes, then add up per-character widths. -/
def getVisualWidth (s : List Char) : Int :=
  widthSum (removeANSIEscapeCodes s)

/-! ## Text shaper: truncation (terminal.go) -/

/-- The character-accumulating loop of `truncateToVisualWidth`: keep taking
characters while the running width stays within `width`; the first character
that would overflow stops the whole loop (`break`). -/
def ttvLoop (width : Int) : List Char → Int → List Char
  | [], _ => []
  | c :: rest, cur =>
      if cur + (charWidth c : Int) > width then []
      else c :: ttvLoop width rest (cur + (charWidth c : Int))

/-- `truncateToVisualWidth`: cut the escape-stripped input to at most `width`
visual columns, never splitting a character. -/
def truncateToVisualWidth (s : List Char) (width : Int) : List Char :=
  if width ≤ 0 then [] else ttvLoop width (removeANSIEscapeCodes s) 0

/-- `TruncateString`: return unchanged when the text already fits; hard-cut
without ellipsis when `width < 3`; otherwise cut to `width - 3` columns and
append `"..."`. -/
def TruncateString (s : List Char) (width : Int) : List Char :=
  if getVisualWidth s ≤ width then s
  else if width < 3 then truncateToVisualWidth s width
  else truncateToVisualWidth s (width - 3) ++ ['.', '.', '.']

/-! ## Text shaper: wrapping (box.go) -/

/-- UTF-8 encoded size in bytes of one character, as Go's `len` counts it. -/
def utf8Size (c : Char) : Nat :=
  if c.toNat < 0x80 then 1
  else if c.toNat < 0x800 then 2
  else if c.toNat < 0x10000 then 3
  else 4

/-- Byte length of a string, Go's `len` / `strings.Builder.Len`. -/
def byteLen (l : List Char) : Nat :=
  (l.map utf8Size).sum

/-- Go's `unicode.IsSpace`: the Latin-1 white space characters together with
the Unicode `White_Space` code points outside Latin-1. -/
def goIsSpace (c : Char) : Bool :=
  let n := c.toNat
  n = 0x9 || n = 0xA || n = 0xB || n = 0xC || n = 0xD || n = 0x20 ||
  n = 0x85 || n = 0xA0 || n = 0x1680 ||
  (0x2000 ≤ n && n ≤ 0x200A) ||
  n = 0x2028 || n = 0x2029 || n = 0x202F || n = 0x205F || n = 0x3000

/-- `strings.Fields`: the maximal runs of non-whitespace characters. -/
def fields (l : List Char) : List (List Char) :=
  (l.splitOnP goIsSpace).filter (fun w => !w.isEmpty)

/-- The word loop of `wrapText`, carrying the finished lines and the current
line. Packing compares byte lengths (`strings.Builder.Len` and `len(word)`),
not visual widths. -/
def wrapLoop (width : Int) : List (List Char) → List (List Char) → List Char → List (List Char)
  | [], lines, current =>
      if current.isEmpty then lines else lines ++ [current]
  | w :: ws, lines, current =>
      if current.isEmpty then wrapLoop width ws lines w
      else if (byteLen current : Int) + 1 + (byteLen w : Int) ≤ width then
        wrapLoop width ws lines (current ++ ' ' :: w)
      else
        wrapLoop width ws (lines ++ [current]) w

/-- `wrapText`: non-positive widths return the text whole; otherwise split on
whitespace and pack greedily. -/
def wrapText (text : List Char) (width : Int) : List (List Char) :=
  if width ≤ 0 then [text]
  else
    match fields text with
    | [] => [[]]
    | w :: ws => wrapLoop width (w :: ws) [] []

/-- Greedy packing written from the spec's words (§4.2): pack by
`visualWidth(currentLine) + 1 + visualWidth(nextWord) <= width`. Used only to
compare against `wrapText`. -/
def wrapLoopSpecVisual (width : Int) : List (List Char) → List (List Char) → List Char → List (List Char)
  | [], lines, current =>
      if current.isEmpty then lines else lines ++ [current]
  | w :: ws, lines, current =>
      if current.isEmpty then wrapLoopSpecVisual width ws lines w
      else if getVisualWidth current + 1 + getVisualWidth w ≤ width then
        wrapLoopSpecVisual width ws lines (current ++ ' ' :: w)
      else
        wrapLoopSpecVisual width ws (lines ++ [current]) w

/-- The spec's wrap operation (§4.2), identical to `wrapText` except that the
packing condition uses visual widths. -/
def wrapSpecVisual (text : List Char) (width : Int) : List (List Char) :=
  if width ≤ 0 then [text]
  else
    match fields text with
    | [] => [[]]
    | w :: ws => wrapLoopSpecVisual width (w :: ws) [] []

/-- Direct (accumulator-free) form of the byte-length greedy packing; used to
state the amended C3 claim. -/
def packWords (width : Int) : List (List Char) → List Char → List (List Char)
  | [], cur => [cur]
  | w :: ws, cur =>
      if (byteLen cur : Int) + 1 + (byteLen w : Int) ≤ width then
        packWords width ws (cur ++ ' ' :: w)
      else
        cur :: packWords width ws w

/-- The byte-length greedy wrap in direct form. -/
def wrapBytesDirect (text : List Char) (width : Int) : List (List Char) :=
  if width ≤ 0 then [text]
  else
    match fields text with
    | [] => [[]]
    | w :: ws => packWords width ws w

/-! ## Colors (colors.go) -/

/-- The ANSI reset sequence `"\033[0m"`. -/
def ResetCode : List Char := "\x1b[0m".toList

/-- `Color`: an ANSI code plus a disabled flag. -/
structure Color where
  code : List Char
  disabled : Bool

/-- `Color.Sprint`: identity when disabled, otherwise wrap in the color code
and the reset sequence. -/
def Color.Sprint (c : Color) (s : List Char) : List Char :=
  if c.disabled then s else c.code ++ s ++ ResetCode

/-- A complete SGR-style escape: `ESC [ params final` and nothing else, the
shape of every color code the library emits. -/
def isSGRCode (l : List Char) : Bool :=
  match l with
  | c :: rest =>
      c = escChar &&
        (match matchEscape rest with
         | some [] => true
         | _ => false)
  | [] => false

/-- The color code constants of colors.go. -/
def climeColorCodes : List (List Char) :=
  ["\x1b[0m",
   "\x1b[30m", "\x1b[31m", "\x1b[32m", "\x1b[33m",
   "\x1b[34m", "\x1b[35m", "\x1b[36m", "\x1b[37m",
   "\x1b[90m", "\x1b[91m", "\x1b[92m", "\x1b[93m",
   "\x1b[94m", "\x1b[95m", "\x1b[96m", "\x1b[97m",
   "\x1b[40m", "\x1b[41m", "\x1b[42m", "\x1b[43m",
   "\x1b[44m", "\x1b[45m", "\x1b[46m", "\x1b[47m",
   "\x1b[1m", "\x1b[2m", "\x1b[3m", "\x1b[4m",
   "\x1b[5m", "\x1b[7m", "\x1b[9m"].map String.toList

/-- Wrapping a string in a stack of (enabled) colors, innermost last:
`wrapColors [c1, c2] s = c1.Sprint (c2.Sprint s)`. -/
def wrapColors : List (List Char) → List Char → List Char
  | [], s => s
  | c :: cs, s => Color.Sprint ⟨c, false⟩ (wrapColors cs s)

/-- A list whose head (if any) can neither continue nor begin an ANSI escape
match: not a parameter byte, not a final byte, and not `[`. Appending such a
list to another never creates an escape match spanning the boundary. -/
def safeHead (u : List Char) : Bool :=
  match u with
  | [] => true
  | c :: _ => !isAnsiParam c && !isAnsiFinal c && !(c = '[')

/-! ## Theorems -/

/-! ### Structure of the ANSI-stripping scan -/

theorem consumeParams_length : ∀ {l r : List Char}, consumeParams l = some r → r.length < l.length := by
  intro l
  induction l with
  | nil => intro r h; simp [consumeParams] at h
  | cons c rest ih =>
    intro r h
    simp only [consumeParams] at h
    split at h
    · exact Nat.lt_succ_of_lt (ih h)
    · split at h
      · cases h; exact Nat.lt_succ_self _
      · exact Option.noConfusion h

theorem matchEscape_length {l r : List Char} (h : matchEscape l = some r) : r.length < l.length := by
  match l with
  | [] => simp [matchEscape] at h
  | c :: rest =>
    simp only [matchEscape] at h
    split at h
    · exact Nat.lt_succ_of_lt (consumeParams_length h)
    · exact Option.noConfusion h

theorem stripFuel_congr : ∀ (n m : Nat) (l : List Char), l.length ≤ n → l.length ≤ m →
    stripFuel n l = stripFuel m l := by
  intro n
  induction n with
  | zero =>
    intro m l hn _
    have h0 : l = [] := List.eq_nil_of_length_eq_zero (Nat.le_zero.mp hn)
    subst h0
    cases m <;> rfl
  | succ n ih =>
    intro m l hn hm
    cases l with
    | nil => cases m <;> rfl
    | cons c rest =>
      have hr : rest.length + 1 ≤ n + 1 := by simpa using hn
      cases m with
      | zero => simp at hm
      | succ m =>
        have hrm : rest.length + 1 ≤ m + 1 := by simpa using hm
        simp only [stripFuel]
        by_cases hc : c = escChar
        · simp only [if_pos hc]
          cases hme : matchEscape rest with
          | some r2 =>
            have hlt := matchEscape_length hme
            exact ih m r2 (by omega) (by omega)
          | none =>
            exact congrArg (c :: ·) (ih m rest (by omega) (by omega))
        · simp only [if_neg hc]
          exact congrArg (c :: ·) (ih m rest (by omega) (by omega))

theorem strip_nil : removeANSIEscapeCodes [] = [] := rfl

theorem strip_cons_of_ne {c : Char} (l : List Char) (h : ¬c = escChar) :
    removeANSIEscapeCodes (c :: l) = c :: removeANSIEscapeCodes l := by
  show stripFuel (c :: l).length (c :: l) = _
  simp only [List.length_cons, stripFuel, if_neg h]
  rfl

theorem strip_cons_esc_none {l : List Char} (h : matchEscape l = none) :
    removeANSIEscapeCodes (escChar :: l) = escChar :: removeANSIEscapeCodes l := by
  show stripFuel (escChar :: l).length (escChar :: l) = _
  simp only [List.length_cons, stripFuel, if_pos rfl, h]
  rfl

theorem strip_cons_esc_some {l r : List Char} (h : matchEscape l = some r) :
    removeANSIEscapeCodes (escChar :: l) = removeANSIEscapeCodes r := by
  show stripFuel (escChar :: l).length (escChar :: l) = _
  simp only [List.length_cons, stripFuel, if_pos rfl, h]
  exact stripFuel_congr _ _ r (Nat.le_of_lt (matchEscape_length h)) (le_refl _)

theorem consumeParams_append_some : ∀ {l r : List Char} (u : List Char),
    consumeParams l = some r → consumeParams (l ++ u) = some (r ++ u) := by
  intro l
  induction l with
  | nil => intro r u h; simp [consumeParams] at h
  | cons c rest ih =>
    intro r u h
    simp only [consumeParams] at h
    simp only [List.cons_append, consumeParams]
    by_cases h1 : isAnsiParam c = true
    · simp only [if_pos h1] at h ⊢
      exact ih u h
    · by_cases h2 : isAnsiFinal c = true
      · simp only [if_neg h1, if_pos h2] at h ⊢
        cases h; rfl
      · simp only [if_neg h1, if_neg h2] at h
        exact Option.noConfusion h

theorem matchEscape_append_some {l r : List Char} (u : List Char)
    (h : matchEscape l = some r) : matchEscape (l ++ u) = some (r ++ u) := by
  match l with
  | [] => simp [matchEscape] at h
  | c :: rest =>
    simp only [matchEscape] at h
    simp only [List.cons_append, matchEscape]
    by_cases hc : c = '['
    · simp only [if_pos hc] at h ⊢
      exact consumeParams_append_some u h
    · simp only [if_neg hc] at h
      exact Option.noConfusion h

theorem consumeParams_append_none : ∀ {l : List Char} (u : List Char),
    consumeParams l = none → safeHead u = true → consumeParams (l ++ u) = none := by
  intro l
  induction l with
  | nil =>
    intro u _ hu
    simp only [List.nil_append]
    match u, hu with
    | [], _ => rfl
    | c :: rest, hu =>
      simp only [safeHead, Bool.and_eq_true, Bool.not_eq_true'] at hu
      simp [consumeParams, hu.1.1, hu.1.2]
  | cons c rest ih =>
    intro u h hu
    simp only [consumeParams] at h
    simp only [List.cons_append, consumeParams]
    by_cases h1 : isAnsiParam c = true
    · simp only [if_pos h1] at h ⊢
      exact ih u h hu
    · by_cases h2 : isAnsiFinal c = true
      · simp only [if_neg h1, if_pos h2] at h
        exact Option.noConfusion h
      · simp only [if_neg h1, if_neg h2]

theorem matchEscape_append_none {l : List Char} (u : List Char)
    (h : matchEscape l = none) (hu : safeHead u = true) :
    matchEscape (l ++ u) = none := by
  match l with
  | [] =>
    simp only [List.nil_append]
    match u, hu with
    | [], _ => rfl
    | c :: rest, hu =>
      simp only [safeHead, Bool.and_eq_true, Bool.not_eq_true'] at hu
      have hc : ¬c = '[' := by
        intro hcontra
        rw [hcontra] at hu
        simp at hu
      simp [matchEscape, hc]
  | c :: rest =>
    simp only [matchEscape] at h
    simp only [List.cons_append, matchEscape]
    by_cases hc : c = '['
    · simp only [if_pos hc] at h ⊢
      exact consumeParams_append_none u h hu
    · simp only [if_neg hc]

theorem strip_append_aux (u : List Char) (hu : safeHead u = true) :
    ∀ (n : Nat) (x : List Char), x.length ≤ n →
    removeANSIEscapeCodes (x ++ u) =
      removeANSIEscapeCodes x ++ removeANSIEscapeCodes u := by
  intro n
  induction n with
  | zero =>
    intro x hx
    have h0 : x = [] := List.eq_nil_of_length_eq_zero (Nat.le_zero.mp hx)
    subst h0
    simp [strip_nil]
  | succ n ih =>
    intro x hx
    match x with
    | [] => simp [strip_nil]
    | c :: rest =>
      have hr : rest.length ≤ n := by
        have : rest.length + 1 ≤ n + 1 := by simpa using hx
        omega
      by_cases hc : c = escChar
      · subst hc
        cases hme : matchEscape rest with
        | some r2 =>
          have h1 : matchEscape (rest ++ u) = some (r2 ++ u) := matchEscape_append_some u hme
          rw [List.cons_append, strip_cons_esc_some h1, strip_cons_esc_some hme]
          exact ih r2 (by have := matchEscape_length hme; omega)
        | none =>
          have h1 := matchEscape_append_none u hme hu
          rw [List.cons_append, strip_cons_esc_none h1, strip_cons_esc_none hme,
            List.cons_append, ih rest hr]
      · rw [List.cons_append, strip_cons_of_ne _ hc, strip_cons_of_ne _ hc,
          List.cons_append, ih rest hr]

/-- Appending a list whose head cannot extend or begin an escape match splits
the strip into independent halves. -/
theorem strip_append (x u : List Char) (hu : safeHead u = true) :
    removeANSIEscapeCodes (x ++ u) =
      removeANSIEscapeCodes x ++ removeANSIEscapeCodes u :=
  strip_append_aux u hu x.length x (le_refl _)

/-- A complete SGR code at the front of a string is removed whole no matter
what follows it. -/
theorem strip_sgr_prefix {code : List Char} (s : List Char) (h : isSGRCode code = true) :
    removeANSIEscapeCodes (code ++ s) = removeANSIEscapeCodes s := by
  match code with
  | [] => simp [isSGRCode] at h
  | c :: rest =>
    simp only [isSGRCode, Bool.and_eq_true] at h
    obtain ⟨hc, hm⟩ := h
    have hc2 : c = escChar := by simpa using hc
    have hm2 : matchEscape rest = some [] := by
      cases hme : matchEscape rest with
      | some r =>
        cases r with
        | nil => rfl
        | cons a b => rw [hme] at hm; simp at hm
      | none => rw [hme] at hm; simp at hm
    subst hc2
    have h2 : matchEscape (rest ++ s) = some s := by
      simpa using matchEscape_append_some s hm2
    rw [List.cons_append, strip_cons_esc_some h2]

theorem consumeParams_sublist : ∀ {l r : List Char}, consumeParams l = some r →
    List.Sublist r l := by
  intro l
  induction l with
  | nil => intro r h; simp [consumeParams] at h
  | cons c rest ih =>
    intro r h
    simp only [consumeParams] at h
    split at h
    · exact (ih h).cons _
    · split at h
      · cases h; exact List.sublist_cons_self _ _
      · exact Option.noConfusion h

theorem matchEscape_sublist {l r : List Char} (h : matchEscape l = some r) :
    List.Sublist r l := by
  match l with
  | [] => simp [matchEscape] at h
  | c :: rest =>
    simp only [matchEscape] at h
    split at h
    · exact (consumeParams_sublist h).cons _
    · exact Option.noConfusion h

theorem strip_sublist_aux : ∀ (n : Nat) (l : List Char), l.length ≤ n →
    List.Sublist (removeANSIEscapeCodes l) l := by
  intro n
  induction n with
  | zero =>
    intro l hl
    have h0 : l = [] := List.eq_nil_of_length_eq_zero (Nat.le_zero.mp hl)
    subst h0
    exact List.Sublist.refl _
  | succ n ih =>
    intro l hl
    cases l with
    | nil => exact List.Sublist.refl _
    | cons c rest =>
      have hr : rest.length ≤ n := by
        have : rest.length + 1 ≤ n + 1 := by simpa using hl
        omega
      by_cases hc : c = escChar
      · subst hc
        cases hme : matchEscape rest with
        | some r2 =>
          rw [strip_cons_esc_some hme]
          have h1 := ih r2 (by have h2 := (matchEscape_sublist hme).length_le; omega)
          exact (h1.trans (matchEscape_sublist hme)).cons _
        | none =>
          rw [strip_cons_esc_none hme]
          exact (ih rest hr).cons₂ _
      · rw [strip_cons_of_ne _ hc]
        exact (ih rest hr).cons₂ _

/-- Stripping only removes characters. -/
theorem strip_sublist (l : List Char) : List.Sublist (removeANSIEscapeCodes l) l :=
  strip_sublist_aux l.length l (le_refl _)

theorem strip_length_le (l : List Char) :
    (removeANSIEscapeCodes l).length ≤ l.length :=
  (strip_sublist l).length_le

/-- Any prefix of a string that stripping leaves unchanged is itself left
unchanged: stripping cannot match inside it since a match there would extend
to a match of the whole. -/
theorem strip_fix_of_prefix : ∀ (n : Nat) (t p : List Char), t.length ≤ n →
    removeANSIEscapeCodes t = t → p <+: t → removeANSIEscapeCodes p = p := by
  intro n
  induction n with
  | zero =>
    intro t p hn _ hp
    have h0 : t = [] := List.eq_nil_of_length_eq_zero (Nat.le_zero.mp hn)
    subst h0
    have h1 : p = [] := List.prefix_nil.mp hp
    subst h1
    rfl
  | succ n ih =>
    intro t p hn hfix hp
    cases p with
    | nil => rfl
    | cons a p2 =>
      cases t with
      | nil => simp [List.prefix_nil] at hp
      | cons c t2 =>
        obtain ⟨hac, hp2⟩ := List.cons_prefix_cons.mp hp
        subst hac
        have ht2 : t2.length ≤ n := by
          have : t2.length + 1 ≤ n + 1 := by simpa using hn
          omega
        by_cases hc : a = escChar
        · subst hc
          cases hme : matchEscape t2 with
          | some r =>
            exfalso
            rw [strip_cons_esc_some hme] at hfix
            have h1 : (removeANSIEscapeCodes r).length ≤ r.length := strip_length_le r
            have h2 := matchEscape_length hme
            have h3 := congrArg List.length hfix
            simp only [List.length_cons] at h3
            omega
          | none =>
            rw [strip_cons_esc_none hme] at hfix
            have hfix2 : removeANSIEscapeCodes t2 = t2 := by
              injection hfix
            cases hmp : matchEscape p2 with
            | some rp =>
              exfalso
              obtain ⟨ext, hext⟩ := hp2
              rw [← hext, matchEscape_append_some ext hmp] at hme
              exact Option.noConfusion hme
            | none =>
              rw [strip_cons_esc_none hmp]
              rw [ih t2 p2 ht2 hfix2 hp2]
        · rw [strip_cons_of_ne _ hc] at hfix
          have hfix2 : removeANSIEscapeCodes t2 = t2 := by
            injection hfix
          rw [strip_cons_of_ne _ hc, ih t2 p2 ht2 hfix2 hp2]

/-! ### Width arithmetic -/

theorem charWidth_pos (c : Char) : 1 ≤ charWidth c := by
  unfold charWidth; split <;> omega

theorem charWidth_le_two (c : Char) : charWidth c ≤ 2 := by
  unfold charWidth; split <;> omega

theorem isWideChar_false_of_small {c : Char} (h : c.toNat < 0x1100) :
    isWideChar c = false := by
  unfold isWideChar
  simp only [Bool.or_eq_false_iff, Bool.and_eq_false_iff, decide_eq_false_iff_not, not_le]
  omega

theorem utf8Size_pos (c : Char) : 1 ≤ utf8Size c := by
  unfold utf8Size
  by_cases h1 : c.toNat < 0x80 <;> by_cases h2 : c.toNat < 0x800 <;>
    by_cases h3 : c.toNat < 0x10000 <;> simp [h1, h2, h3]

theorem charWidth_le_utf8Size (c : Char) : charWidth c ≤ utf8Size c := by
  by_cases h : c.toNat < 0x800
  · have hw : isWideChar c = false := isWideChar_false_of_small (by omega)
    simp only [charWidth, hw, Bool.false_eq_true, if_false]
    exact utf8Size_pos c
  · have h4 : 2 ≤ utf8Size c := by
      unfold utf8Size
      simp only [if_neg (show ¬c.toNat < 0x80 by omega), if_neg h]
      split <;> omega
    exact le_trans (charWidth_le_two c) h4

theorem widthSum_append (a b : List Char) :
    widthSum (a ++ b) = widthSum a + widthSum b := by
  simp [widthSum]

theorem widthSum_le_of_sublist {a b : List Char} (h : List.Sublist a b) :
    widthSum a ≤ widthSum b :=
  List.Sublist.sum_le_sum (h.map charWidth) (fun x _ => Nat.zero_le x)

theorem widthSum_strip_le (l : List Char) :
    widthSum (removeANSIEscapeCodes l) ≤ widthSum l :=
  widthSum_le_of_sublist (strip_sublist l)

theorem widthSum_le_byteLen (l : List Char) : widthSum l ≤ byteLen l := by
  unfold widthSum byteLen
  exact List.sum_le_sum (fun c _ => charWidth_le_utf8Size c)

/-- The visual width never exceeds the UTF-8 byte length. -/
theorem getVisualWidth_le_byteLen (l : List Char) :
    getVisualWidth l ≤ (byteLen l : Int) := by
  unfold getVisualWidth
  have h1 := widthSum_strip_le l
  have h2 := widthSum_le_byteLen l
  omega

/-! ### The truncation loop -/

theorem ttvLoop_isPrefix (w : Int) : ∀ (l : List Char) (cur : Int),
    ttvLoop w l cur <+: l := by
  intro l
  induction l with
  | nil => intro cur; simp [ttvLoop]
  | cons c rest ih =>
    intro cur
    simp only [ttvLoop]
    split
    · exact List.nil_prefix
    · exact List.cons_prefix_cons.mpr ⟨rfl, ih _⟩

theorem ttvLoop_widthSum_le (w : Int) : ∀ (l : List Char) (cur : Int), cur ≤ w →
    (widthSum (ttvLoop w l cur) : Int) ≤ w - cur := by
  intro l
  induction l with
  | nil =>
    intro cur h
    simp only [ttvLoop, widthSum, List.map_nil, List.sum_nil]
    omega
  | cons c rest ih =>
    intro cur h
    simp only [ttvLoop]
    split
    · simp only [widthSum, List.map_nil, List.sum_nil]
      omega
    · rename_i hno
      have hfit : cur + (charWidth c : Int) ≤ w := by omega
      have h2 := ih (cur + (charWidth c : Int)) hfit
      simp only [widthSum, List.map_cons, List.sum_cons] at h2 ⊢
      push_cast at h2 ⊢
      omega

theorem ttv_isPrefix (s : List Char) (w : Int) :
    truncateToVisualWidth s w <+: removeANSIEscapeCodes s := by
  unfold truncateToVisualWidth
  split
  · exact List.nil_prefix
  · exact ttvLoop_isPrefix w _ 0

theorem gv_ttv_le (s : List Char) (w : Int) (hw : 0 ≤ w) :
    getVisualWidth (truncateToVisualWidth s w) ≤ w := by
  unfold truncateToVisualWidth
  split
  · simp only [getVisualWidth, strip_nil, widthSum, List.map_nil, List.sum_nil]
    omega
  · rename_i hpos
    have h1 := widthSum_strip_le (ttvLoop w (removeANSIEscapeCodes s) 0)
    have h2 := ttvLoop_widthSum_le w (removeANSIEscapeCodes s) 0 (by omega)
    unfold getVisualWidth
    omega

/-- The result of `TruncateString` always fits inside the requested width. -/
theorem gv_truncate_le (s : List Char) (w : Int) (hw : 0 ≤ w) :
    getVisualWidth (TruncateString s w) ≤ w := by
  unfold TruncateString
  split
  · assumption
  · rename_i hgv
    split
    · exact gv_ttv_le s w hw
    · rename_i hw3
      have hdots : safeHead ['.', '.', '.'] = true := by decide
      have h1 : getVisualWidth (truncateToVisualWidth s (w - 3) ++ ['.', '.', '.']) =
          getVisualWidth (truncateToVisualWidth s (w - 3)) + 3 := by
        unfold getVisualWidth
        rw [strip_append _ _ hdots, widthSum_append]
        have h2 : widthSum (removeANSIEscapeCodes ['.', '.', '.']) = 3 := by decide
        omega
      rw [h1]
      have h3 := gv_ttv_le s (w - 3) (by omega)
      omega

/-- A string that already fits is returned unchanged. -/
theorem truncate_of_fits {s : List Char} {w : Int} (h : getVisualWidth s ≤ w) :
    TruncateString s w = s := by
  unfold TruncateString
  rw [if_pos h]

/-- Truncation is idempotent because the result fits. -/
theorem truncate_idem (s : List Char) (w : Int) (hw : 0 ≤ w) :
    TruncateString (TruncateString s w) w = TruncateString s w :=
  truncate_of_fits (gv_truncate_le s w hw)

/-- C1: the five tiers do NOT cover every non-negative width. The XL row of
the table ends at `MaxWidth = 999`, contradicting the code's own comment
(`BreakpointXL // >= 160 chars`) and the spec's unbounded XL tier: at width
1000 no row matches and the classification loop falls back to the Go zero
value, tier XS. Widths 999 and below behave as the claim says. -/
theorem breakpoint_table_gap_at_1000 :
    Breakpoints.filter (matchesWidth 1000) = []
  ∧ updateBreakpoint 1000 = BreakpointSize.xs
  ∧ updateBreakpoint 999 = BreakpointSize.xl
  ∧ updateBreakpoint 160 = BreakpointSize.xl := by
  decide

/-- C4: per-tier override resolution agrees with the spec's rule: return the
slot for the requested tier if set, otherwise the nearest defined strictly
lower tier, otherwise `null`; with overrides defined only at XS and LG,
resolving at MD yields the XS override. -/
theorem getConfigForBreakpoint_spec (rc : ResponsiveConfig) (bp : BreakpointSize) :
    GetConfigForBreakpoint rc bp = resolveSpec rc bp
  ∧ (∀ c, slot rc bp = some c → GetConfigForBreakpoint rc bp = some c)
  ∧ ((∀ t ∈ tiersAtOrBelow bp, slot rc t = none) → GetConfigForBreakpoint rc bp = none)
  ∧ (∀ x l : ElementConfig,
      GetConfigForBreakpoint ⟨some x, none, none, some l, none⟩ BreakpointSize.md = some x) := by
  obtain ⟨cxs, csm, cmd, clg, cxl⟩ := rc
  refine ⟨?_, ?_, ?_, ?_⟩
  · cases bp <;> cases cxs <;> cases csm <;> cases cmd <;> cases clg <;> cases cxl <;> rfl
  · intro c h
    cases bp <;> simp only [slot] at h <;> subst h <;> rfl
  · intro h
    cases bp
    · have h1 : cxs = none := h .xs (by decide)
      subst h1; rfl
    · have h1 : cxs = none := h .xs (by decide)
      have h2 : csm = none := h .sm (by decide)
      subst h1; subst h2; rfl
    · have h1 : cxs = none := h .xs (by decide)
      have h2 : csm = none := h .sm (by decide)
      have h3 : cmd = none := h .md (by decide)
      subst h1; subst h2; subst h3; rfl
    · have h1 : cxs = none := h .xs (by decide)
      have h2 : csm = none := h .sm (by decide)
      have h3 : cmd = none := h .md (by decide)
      have h4 : clg = none := h .lg (by decide)
      subst h1; subst h2; subst h3; subst h4; rfl
    · have h1 : cxs = none := h .xs (by decide)
      have h2 : csm = none := h .sm (by decide)
      have h3 : cmd = none := h .md (by decide)
      have h4 : clg = none := h .lg (by decide)
      have h5 : cxl = none := h .xl (by decide)
      subst h1; subst h2; subst h3; subst h4; subst h5; rfl
  · intro x l
    rfl

/-- C4 witness: the resolution theorem applied to a concrete configuration
whose SM slot is set. -/
theorem getConfigForBreakpoint_spec_witness :
    GetConfigForBreakpoint
      ⟨none, some ⟨none, none, none, none, true, false⟩, none, none, none⟩
      BreakpointSize.sm = some ⟨none, none, none, none, true, false⟩ :=
  (getConfigForBreakpoint_spec
      ⟨none, some ⟨none, none, none, none, true, false⟩, none, none, none⟩
      BreakpointSize.sm).2.1
    ⟨none, none, none, none, true, false⟩ (by decide)

/-- C5: when the platform size query fails (`term.GetSize` reports `(0, 0)`
with an error that `NewTerminal` discards, `term.IsTerminal` reports `false`),
the stored snapshot degrades to 80×24, non-TTY; `getTerminalSize` likewise
falls back to `(80, 24)` when both probes fail. Both functions are total:
no error value is returned to any caller. -/
theorem terminal_probe_fallback :
    NewTerminal none false = { width := 80, height := 24, isATTY := false }
  ∧ getTerminalSize none (0, 0) = (80, 24) := by
  exact ⟨rfl, rfl⟩

/-- Go's truncating conversion agrees with the floor on non-negative
rationals. -/
theorem goTrunc_eq_floor (q : ℚ) (h : 0 ≤ q) : goTrunc q = ⌊q⌋ := by
  rw [goTrunc, Rat.floor_def]
  exact Int.tdiv_eq_ediv (by exact_mod_cast Rat.num_nonneg.mpr h) (by positivity)

/-- C7: for a non-negative fraction and terminal width, `SmartWidth` is the
floor of `terminalWidth * fraction` clamped by the per-tier reserve (XS ≥2,
SM ≥4, MD ≥8, LG ≥12, XL ≥16 and an absolute cap of 120); at tier XL on a
200-column terminal, `SmartWidth` with fraction 1 yields exactly 120. -/
theorem smartWidth_spec (tw : Int) (p : ℚ) (htw : 0 ≤ tw) (hp : 0 ≤ p) :
    SmartWidth tw .xs p = min ⌊(tw : ℚ) * p⌋ (tw - 2)
  ∧ SmartWidth tw .sm p = min ⌊(tw : ℚ) * p⌋ (tw - 4)
  ∧ SmartWidth tw .md p = min ⌊(tw : ℚ) * p⌋ (tw - 8)
  ∧ SmartWidth tw .lg p = min ⌊(tw : ℚ) * p⌋ (tw - 12)
  ∧ SmartWidth tw .xl p = min ⌊(tw : ℚ) * p⌋ (min (tw - 16) 120)
  ∧ SmartWidth tw .xs p ≤ tw - 2
  ∧ SmartWidth tw .sm p ≤ tw - 4
  ∧ SmartWidth tw .md p ≤ tw - 8
  ∧ SmartWidth tw .lg p ≤ tw - 12
  ∧ SmartWidth tw .xl p ≤ tw - 16
  ∧ SmartWidth tw .xl p ≤ 120
  ∧ SmartWidth 200 .xl 1 = 120 := by
  have hq : (0 : ℚ) ≤ (tw : ℚ) * p := mul_nonneg (by exact_mod_cast htw) hp
  have hb : goTrunc ((tw : ℚ) * p) = ⌊(tw : ℚ) * p⌋ := goTrunc_eq_floor _ hq
  refine ⟨by simp only [SmartWidth, hb], by simp only [SmartWidth, hb],
    by simp only [SmartWidth, hb], by simp only [SmartWidth, hb],
    by simp only [SmartWidth, hb], ?_, ?_, ?_, ?_, ?_, ?_, ?_⟩
  rotate_right
  · show min (goTrunc ((200 : ℚ) * 1)) (min (200 - 16) 120) = 120
    rw [goTrunc_eq_floor _ (by norm_num)]
    norm_num
  · exact min_le_right _ _
  · exact min_le_right _ _
  · exact min_le_right _ _
  · exact min_le_right _ _
  · exact le_trans (min_le_right _ _) (min_le_left _ _)
  · exact le_trans (min_le_right _ _) (min_le_right _ _)

/-- C7 witness: the theorem instantiated at a 200-column terminal and
fraction 1. -/
theorem smartWidth_spec_witness : SmartWidth 200 .xl 1 = 120 :=
  (smartWidth_spec 200 1 (by decide) (by decide)).2.2.2.2.2.2.2.2.2.2.2

/-- C8: end-to-end at terminal width 70: tier SM, padding 1, margin 2,
available width 66, raw column count 3, capped to the SM maximum of 2;
non-positive content widths are treated as 20, and the result is never
below 1. -/
theorem endToEnd_width70_spec :
    updateBreakpoint 70 = BreakpointSize.sm
  ∧ SmartPadding .sm = 1
  ∧ SmartMargin .sm = 2
  ∧ (70 : Int) - SmartMargin .sm * 2 = 66
  ∧ Int.tdiv 66 (20 + 2) = 3
  ∧ GetOptimalColumns 70 .sm 20 = 2
  ∧ (∀ cw : Int, cw ≤ 0 → GetOptimalColumns 70 .sm cw = 2)
  ∧ (∀ (tw : Int) (bp : BreakpointSize) (cw : Int), 1 ≤ GetOptimalColumns tw bp cw) := by
  refine ⟨by decide, rfl, rfl, by decide, by decide, by decide, ?_, ?_⟩
  · intro cw hcw
    simp only [GetOptimalColumns, if_pos hcw]
    decide
  · intro tw bp cw
    have h1 : ∀ d : Int, 1 ≤ (if d < 1 then 1 else d) := by
      intro d; split <;> omega
    cases bp <;> simp only [GetOptimalColumns] <;> exact le_min (h1 _) (by decide)

/-- C8 witness: the per-claim hypotheses discharged at concrete inputs: a
negative content width resolves like content width 20, and the column count
stays at least 1. -/
theorem endToEnd_width70_spec_witness :
    GetOptimalColumns 70 .sm (-7) = 2 ∧ 1 ≤ GetOptimalColumns 5 .xl 0 :=
  ⟨(endToEnd_width70_spec.2.2.2.2.2.2.1) (-7) (by decide),
   (endToEnd_width70_spec.2.2.2.2.2.2.2) 5 .xl 0⟩

/-- C6 (amended): `TruncateString` returns the input unchanged when it fits;
below width 3 it hard-cuts to AT MOST the requested number of visual columns
(a double-width character at the boundary is dropped, so the result can fall
short of the width, and the cut is never "exactly" the width in general);
from width 3 on it cuts to at most `width - 3` columns and appends `"..."`;
the result always fits, the cut is a whole-character prefix of the stripped
input (so it lands on a code-point boundary and never splits a wide
character), and truncation is idempotent. -/
theorem truncateString_spec (s : List Char) (w : Int) (hw : 0 ≤ w) :
    (getVisualWidth s ≤ w → TruncateString s w = s)
  ∧ (w < getVisualWidth s → w < 3 → TruncateString s w = truncateToVisualWidth s w)
  ∧ (w < getVisualWidth s → 3 ≤ w →
      ∃ p, TruncateString s w = p ++ ['.', '.', '.'])
  ∧ getVisualWidth (TruncateString s w) ≤ w
  ∧ (∀ w2 : Int, truncateToVisualWidth s w2 <+: removeANSIEscapeCodes s)
  ∧ TruncateString (TruncateString s w) w = TruncateString s w := by
  refine ⟨fun h => truncate_of_fits h, ?_, ?_, gv_truncate_le s w hw,
    fun w2 => ttv_isPrefix s w2, truncate_idem s w hw⟩
  · intro h1 h2
    unfold TruncateString
    rw [if_neg (by omega), if_pos h2]
  · intro h1 h2
    unfold TruncateString
    rw [if_neg (by omega), if_neg (by omega)]
    exact ⟨_, rfl⟩

/-- C6 counterexample: the claim's "hard-cuts to exactly w visual columns"
fails. Truncating `"日日"` (two double-width characters, visual width 4) to
width 1 yields the empty string — 0 visual columns, not exactly 1 — because
the double-width character at the boundary cannot be split. -/
theorem truncateString_not_exact_cut :
    getVisualWidth ['日', '日'] = 4
  ∧ TruncateString ['日', '日'] 1 = []
  ∧ getVisualWidth (TruncateString ['日', '日'] 1) = 0 := by
  decide

/-- C6 witness: the amended theorem applied to `"hello world"` at width 8. -/
theorem truncateString_spec_witness :
    getVisualWidth (TruncateString "hello world".toList 8) ≤ 8
  ∧ TruncateString (TruncateString "hello world".toList 8) 8 =
      TruncateString "hello world".toList 8
  ∧ TruncateString "hello world".toList 8 = "hello...".toList := by
  have h := truncateString_spec "hello world".toList 8 (by decide)
  exact ⟨h.2.2.2.1, h.2.2.2.2.2, by decide⟩

/-- C10 (amended): the truncated branch rebuilds its output from the
once-stripped input, so whenever a single stripping pass is complete on `s`
(stripping the stripped string changes nothing) and `s` does not fit, the
output contains no ANSI escape; without that proviso an escape sequence
uncovered by the single pass can survive (see the counterexample). When `s`
fits, it is returned unchanged, escapes included. -/
theorem truncate_output_escape_free (s : List Char) (w : Int)
    (hfix : removeANSIEscapeCodes (removeANSIEscapeCodes s) = removeANSIEscapeCodes s)
    (hover : w < getVisualWidth s) :
    removeANSIEscapeCodes (TruncateString s w) = TruncateString s w := by
  unfold TruncateString
  rw [if_neg (by omega)]
  by_cases h3 : w < 3
  · rw [if_pos h3]
    exact strip_fix_of_prefix (removeANSIEscapeCodes s).length
      (removeANSIEscapeCodes s) (truncateToVisualWidth s w)
      (le_refl _) hfix (ttv_isPrefix s w)
  · rw [if_neg h3]
    have hp : removeANSIEscapeCodes (truncateToVisualWidth s (w - 3)) =
        truncateToVisualWidth s (w - 3) :=
      strip_fix_of_prefix (removeANSIEscapeCodes s).length
        (removeANSIEscapeCodes s) (truncateToVisualWidth s (w - 3))
        (le_refl _) hfix (ttv_isPrefix s (w - 3))
    rw [strip_append _ _ (by decide), hp,
      show removeANSIEscapeCodes ['.', '.', '.'] = ['.', '.', '.'] from by decide]

/-- C10 counterexample: the claim's "returns a string containing no ANSI
escape sequences at all" fails on nested escapes. In
`"\x1b\x1b[1m[31mABCD"` the single stripping pass removes `"\x1b[1m"` and
thereby uncovers `"\x1b[31m"`; truncating to width 8 keeps that uncovered
escape, so the output still contains an ANSI escape sequence (stripping the
output changes it). -/
theorem truncate_keeps_uncovered_escape :
    removeANSIEscapeCodes "\x1b\x1b[1m[31mABCD".toList ≠ "\x1b\x1b[1m[31mABCD".toList
  ∧ getVisualWidth "\x1b\x1b[1m[31mABCD".toList = 9
  ∧ TruncateString "\x1b\x1b[1m[31mABCD".toList 8 = "\x1b[31m...".toList
  ∧ removeANSIEscapeCodes (TruncateString "\x1b\x1b[1m[31mABCD".toList 8) ≠
      TruncateString "\x1b\x1b[1m[31mABCD".toList 8 := by
  decide

/-- C10 witness: the amended theorem applied to a singly-colored string. -/
theorem truncate_output_escape_free_witness :
    removeANSIEscapeCodes (TruncateString "\x1b[31mhello".toList 3) =
      TruncateString "\x1b[31mhello".toList 3 :=
  truncate_output_escape_free "\x1b[31mhello".toList 3 (by decide) (by decide)

/-! ### Visual width invariance under the library's color codes -/

theorem widthSum_eq_length_of_narrow : ∀ (s : List Char),
    (∀ c ∈ s, c.toNat < 0x1100) → widthSum s = s.length := by
  intro s h
  induction s with
  | nil => rfl
  | cons c rest ih =>
    have hc : isWideChar c = false := isWideChar_false_of_small (h c (by simp))
    have hr := ih (fun x hx => h x (by simp [hx]))
    simp only [widthSum, List.map_cons, List.sum_cons, charWidth, hc,
      Bool.false_eq_true, if_false, List.length_cons] at hr ⊢
    omega

/-- Wrapping in one complete SGR code and the reset sequence leaves the
visual width unchanged. -/
theorem gv_sgr_wrap (code s : List Char) (hcode : isSGRCode code = true) :
    getVisualWidth (code ++ s ++ ResetCode) = getVisualWidth s := by
  unfold getVisualWidth
  rw [List.append_assoc, strip_sgr_prefix _ hcode,
    strip_append _ _ (by decide),
    show removeANSIEscapeCodes ResetCode = [] from by decide]
  simp

/-- C9: the measurer is a pure function with `visualWidth("") = 0`; on ASCII
text free of escape sequences (stripping is the identity on it) the visual
width is the character count; and wrapping any string in any number of the
library's own color escape sequences — or applying `Color.Sprint` with any
SGR-shaped code, enabled or disabled — leaves the visual width unchanged. -/
theorem getVisualWidth_spec :
    getVisualWidth ([] : List Char) = 0
  ∧ (∀ s : List Char, (∀ c ∈ s, c.toNat < 128) →
      removeANSIEscapeCodes s = s → getVisualWidth s = s.length)
  ∧ (∀ code ∈ climeColorCodes, isSGRCode code = true)
  ∧ (∀ (cs : List (List Char)) (s : List Char), (∀ c ∈ cs, isSGRCode c = true) →
      getVisualWidth (wrapColors cs s) = getVisualWidth s)
  ∧ (∀ (col : Color) (s : List Char), isSGRCode col.code = true →
      getVisualWidth (Color.Sprint col s) = getVisualWidth s) := by
  have hsprint : ∀ (col : Color) (s : List Char), isSGRCode col.code = true →
      getVisualWidth (Color.Sprint col s) = getVisualWidth s := by
    intro col s hcode
    unfold Color.Sprint
    split
    · rfl
    · exact gv_sgr_wrap col.code s hcode
  refine ⟨rfl, ?_, by decide, ?_, hsprint⟩
  · intro s hascii hfix
    unfold getVisualWidth
    rw [hfix, widthSum_eq_length_of_narrow s (fun c hc => lt_trans (hascii c hc) (by omega))]
  · intro cs
    induction cs with
    | nil => intro s _; rfl
    | cons c cs ih =>
      intro s h
      show getVisualWidth (Color.Sprint ⟨c, false⟩ (wrapColors cs s)) = _
      rw [hsprint ⟨c, false⟩ (wrapColors cs s) (h c (by simp)),
        ih s (fun x hx => h x (by simp [hx]))]

/-- C9 witness: the ASCII clause at `"abc"` and the invariance clause under a
two-deep color wrapping. -/
theorem getVisualWidth_spec_witness :
    getVisualWidth "abc".toList = ("abc".toList).length
  ∧ getVisualWidth
      (wrapColors ["\x1b[31m".toList, "\x1b[1m".toList] "abc".toList) =
      getVisualWidth "abc".toList :=
  ⟨(getVisualWidth_spec.2.1) "abc".toList (by decide) (by decide),
   (getVisualWidth_spec.2.2.2.1) ["\x1b[31m".toList, "\x1b[1m".toList]
     "abc".toList (by decide)⟩

/-! ### Wrapping -/

theorem fields_ne_nil (l : List Char) : ∀ w ∈ fields l, w ≠ [] := by
  intro w hw
  unfold fields at hw
  have h := (List.mem_filter.mp hw).2
  simpa using h

theorem byteLen_append (a b : List Char) :
    byteLen (a ++ b) = byteLen a + byteLen b := by
  simp [byteLen]

theorem wrapLoop_eq_packWords (width : Int) :
    ∀ (ws : List (List Char)) (lines : List (List Char)) (cur : List Char),
    (∀ u ∈ ws, u ≠ []) → cur ≠ [] →
    wrapLoop width ws lines cur = lines ++ packWords width ws cur := by
  intro ws
  induction ws with
  | nil =>
    intro lines cur _ hcur
    simp [wrapLoop, packWords, List.isEmpty_iff, hcur]
  | cons w ws ih =>
    intro lines cur hws hcur
    have hw : w ≠ [] := hws w (by simp)
    have hws2 : ∀ u ∈ ws, u ≠ [] := fun u hu => hws u (by simp [hu])
    simp only [wrapLoop, packWords]
    rw [if_neg (by simpa [List.isEmpty_iff] using hcur)]
    by_cases hfits : (byteLen cur : Int) + 1 + (byteLen w : Int) ≤ width
    · rw [if_pos hfits, if_pos hfits, ih lines (cur ++ ' ' :: w) hws2 (by simp)]
    · rw [if_neg hfits, if_neg hfits, ih (lines ++ [cur]) w hws2 hw]
      simp

theorem wrapText_eq_direct (text : List Char) (width : Int) (hw : 0 < width) :
    wrapText text width = wrapBytesDirect text width := by
  unfold wrapText wrapBytesDirect
  rw [if_neg (by omega), if_neg (by omega)]
  cases hf : fields text with
  | nil => rfl
  | cons w ws =>
    have hne : ∀ u ∈ w :: ws, u ≠ [] := by
      rw [← hf]; exact fields_ne_nil text
    simp only [wrapLoop, List.isEmpty_nil, if_true]
    rw [wrapLoop_eq_packWords width ws [] w
      (fun u hu => hne u (by simp [hu])) (hne w (by simp))]
    simp

theorem packWords_bound (width : Int) (S : List (List Char)) :
    ∀ (ws : List (List Char)) (cur : List Char),
    (∀ u ∈ ws, u ∈ S) → ((byteLen cur : Int) ≤ width ∨ cur ∈ S) →
    ∀ line ∈ packWords width ws cur, (byteLen line : Int) ≤ width ∨ line ∈ S := by
  intro ws
  induction ws with
  | nil =>
    intro cur _ hcur line hline
    simp only [packWords, List.mem_singleton] at hline
    subst hline
    exact hcur
  | cons w ws ih =>
    intro cur hws hcur line hline
    simp only [packWords] at hline
    by_cases hfits : (byteLen cur : Int) + 1 + (byteLen w : Int) ≤ width
    · rw [if_pos hfits] at hline
      refine ih (cur ++ ' ' :: w) (fun u hu => hws u (by simp [hu])) ?_ line hline
      left
      have hb : byteLen (cur ++ ' ' :: w) = byteLen cur + 1 + byteLen w := by
        rw [byteLen_append]
        simp only [byteLen, List.map_cons, List.sum_cons]
        have : utf8Size ' ' = 1 := by decide
        omega
      rw [hb]
      push_cast
      omega
    · rw [if_neg hfits] at hline
      rcases List.mem_cons.mp hline with h | h
      · subst h
        exact hcur
      · exact ih w (fun u hu => hws u (by simp [hu]))
          (Or.inr (hws w (by simp))) line h

/-- C3 (amended): `wrapText` splits on whitespace and packs greedily, but the
packing condition compares UTF-8 BYTE lengths
(`len(currentLine) + 1 + len(word) <= width`), not visual widths. The greedy
byte-length packing is captured exactly by `packWords`; consequently every
returned line either has byte length (hence visual width) at most the
requested width or is a single word of the whitespace split placed alone on
its line. -/
theorem wrapText_spec (text : List Char) (width : Int) (hw : 0 < width) :
    wrapText text width = wrapBytesDirect text width
  ∧ (∀ line ∈ wrapText text width,
      (byteLen line : Int) ≤ width ∨ line ∈ fields text)
  ∧ (∀ line ∈ wrapText text width,
      getVisualWidth line ≤ width ∨ line ∈ fields text) := by
  have h1 := wrapText_eq_direct text width hw
  have hbyte : ∀ line ∈ wrapText text width,
      (byteLen line : Int) ≤ width ∨ line ∈ fields text := by
    intro line hline
    rw [h1] at hline
    unfold wrapBytesDirect at hline
    rw [if_neg (by omega)] at hline
    cases hf : fields text with
    | nil =>
      rw [hf] at hline
      simp only [List.mem_singleton] at hline
      subst hline
      left
      simp only [byteLen, List.map_nil, List.sum_nil]
      omega
    | cons w ws =>
      rw [hf] at hline
      exact packWords_bound width (w :: ws) ws w
        (fun u hu => by simp [hu]) (Or.inr (by simp)) line hline
  refine ⟨h1, hbyte, ?_⟩
  intro line hline
  rcases hbyte line hline with h | h
  · exact Or.inl (le_trans (getVisualWidth_le_byteLen line) h)
  · exact Or.inr h

/-- C3 counterexample: the claim's packing condition
`visualWidth(currentLine) + 1 + visualWidth(nextWord) <= width` fails on the
code. For `"日 a"` at width 4 the visual-width condition holds (2 + 1 + 1 ≤ 4)
so the spec's rule keeps one line, but the code compares byte lengths
(3 + 1 + 1 > 4) and breaks the line. -/
theorem wrapText_packs_by_bytes_not_visual :
    wrapText "日 a".toList 4 = [['日'], ['a']]
  ∧ wrapSpecVisual "日 a".toList 4 = [['日', ' ', 'a']]
  ∧ getVisualWidth ['日'] + 1 + getVisualWidth ['a'] ≤ 4
  ∧ wrapText "日 a".toList 4 ≠ wrapSpecVisual "日 a".toList 4 := by
  decide

/-- C3 witness: the amended theorem applied to a concrete wrap. -/
theorem wrapText_spec_witness :
    wrapText "the quick brown fox".toList 10 =
      wrapBytesDirect "the quick brown fox".toList 10
  ∧ (getVisualWidth "the quick".toList ≤ 10 ∨
      "the quick".toList ∈ fields "the quick brown fox".toList) :=
  ⟨(wrapText_spec "the quick brown fox".toList 10 (by decide)).1,
   (wrapText_spec "the quick brown fox".toList 10 (by decide)).2.2
     "the quick".toList (by decide)⟩

end Clime
